import Mathlib

/-!
Verification of the lazy single-line text navigation engine of MiniRead
(`src/scrolling_text.py`, class `LineTextWidget`).

The engine is shallowly embedded: the document buffer is a `List Char`,
the Qt font-metrics `horizontalAdvance` is an abstract measure function
`List Char → ℕ` supplied as a parameter, and each Python method becomes a
Lean function on an explicit `Engine` state, returning the emitted signals
alongside the new state.  Python `int` arithmetic is `Nat`/`Int`;
the float comparisons `w <= available_width * 1.1` and
`w <= available_width * 1.15` are modelled exactly over the rationals as
`10 * w ≤ 11 * aw` and `20 * w ≤ 23 * aw`, and `int(max_length * 0.7)`
as `7 * max_length / 10` (floor).
-/

namespace MiniRead

/-- The measure function abstracting `QFontMetrics.horizontalAdvance`:
rendered pixel width of a string under the active font. -/
abbrev Measure := List Char → Nat

/-- The host-side precondition on the measure function (spec §3, §7):
a prefix of a string is never wider than the string itself. -/
def MonotoneMeasure (m : Measure) : Prop :=
  ∀ l₁ l₂ : List Char, l₁ <+: l₂ → m l₁ ≤ m l₂

/-! ### Character sets from `_find_best_break_point` / `_handle_quote_break` -/

/-- `'。！？!?；;'` — sentence-ending marks (line 126 / 143 of the source).
Note: the Western full stop `'.'` is *not* in this set. -/
def sentence_end_marks : List Char := ['。', '！', '？', '!', '?', '；', ';']

/-- `'，、,、'` — clause-pause marks (line 144). -/
def pause_marks : List Char := ['，', '、', ',', '、']

/-- `'：:）)】}」』"\'》>'` — other break-worthy punctuation (line 146).
In the source bytes the two quote characters are the ASCII double quote
and the ASCII apostrophe. -/
def other_marks : List Char := ['：', ':', '）', ')', '】', '}', '」', '』', '"', '\'', '》', '>']

/-- `left_quotes = '""'` (line 188): in the source bytes these are two ASCII
double-quote characters (the intended curly quotes were mangled). -/
def left_quotes : List Char := ['"', '"']

/-- `right_quotes = '""'` (line 189): identical to `left_quotes` in the
source bytes. -/
def right_quotes : List Char := ['"', '"']

/-- `'。！？!?，、,；;：:'` — punctuation allowed to follow a closing quote
(line 214). -/
def quote_tail_marks : List Char :=
  ['。', '！', '？', '!', '?', '，', '、', ',', '；', ';', '：', ':']

/-! ### `setText` normalization (lines 52–67)

`text.replace('\n', ' ').replace('\r', ' ')`, then `re.sub(r'\s+', ' ', ·)`,
then `.strip()`.  `\s` (and `str.strip`) match Python's whitespace set. -/

/-- Python's whitespace predicate (the set matched by `\s` with the Unicode
flag and stripped by `str.strip`). -/
def pyIsSpace (c : Char) : Bool :=
  c = ' ' ∨ c = '\t' ∨ c = '\n' ∨ c = '\r' ∨ c = '\x0b' ∨ c = '\x0c' ∨
  c = '\x1c' ∨ c = '\x1d' ∨ c = '\x1e' ∨ c = '\x1f' ∨ c = '\x85' ∨ c = '\xa0' ∨
  c = ' ' ∨ (' ' ≤ c ∧ c ≤ ' ') ∨ c = ' ' ∨ c = ' ' ∨
  c = ' ' ∨ c = ' ' ∨ c = '　'

/-- `text.replace('\n', ' ').replace('\r', ' ')`. -/
def replaceNewlines (l : List Char) : List Char :=
  l.map fun c => if c = '\n' ∨ c = '\r' then ' ' else c

/-- Worker for `re.sub(r'\s+', ' ', s)`: `inRun` records whether the
previous character belonged to a whitespace run already replaced by a
space. -/
def collapseWsAux : Bool → List Char → List Char
  | _, [] => []
  | inRun, c :: rest =>
      if pyIsSpace c then
        if inRun then collapseWsAux true rest
        else ' ' :: collapseWsAux true rest
      else c :: collapseWsAux false rest

/-- `re.sub(r'\s+', ' ', s)`: every maximal run of whitespace becomes one
space. -/
def collapseWs (l : List Char) : List Char :=
  collapseWsAux false l

/-- `s.strip()`. -/
def pyStrip (l : List Char) : List Char :=
  ((l.dropWhile pyIsSpace).reverse.dropWhile pyIsSpace).reverse

/-- The full normalization performed by `setText` on non-empty input. -/
def normalizeText (l : List Char) : List Char :=
  pyStrip (collapseWs (replaceNewlines l))

/-! ### `_get_display_line_length` (lines 90–115): binary search -/

/-- The `while left <= right` binary-search loop of
`_get_display_line_length`, lines 101–109.  `left`/`right` are Python ints
(`right` reaches `-1` on exit), so they are `Int` here; the fuel argument
only bounds the iteration count and `text.length + 2` is always enough,
since `right - left` strictly decreases each pass. -/
def bsLoop (m : Measure) (text : List Char) (aw : Nat) :
    Nat → Int → Int → Nat → Nat
  | 0, _, _, result => result
  | fuel + 1, left, right, result =>
      if left ≤ right then
        let mid := (left + right) / 2
        if m (text.take mid.toNat) ≤ aw then
          bsLoop m text aw fuel (mid + 1) right mid.toNat
        else
          bsLoop m text aw fuel left (mid - 1) result
      else result

/-- Binary search of `_get_display_line_length`: the last `mid` at which
`fm.horizontalAdvance(text[:mid]) <= available_width` held. -/
def binSearchFit (m : Measure) (text : List Char) (aw : Nat) : Nat :=
  bsLoop m text aw (text.length + 2) 0 (text.length : Int) 0

/-- Index of the last character of `l` that lies in `marks`
(the backward `for i in range(len(search_text) - 1, -1, -1)` scans of
lines 153–170). -/
def lastIdxIn (l : List Char) (marks : List Char) : Option Nat :=
  match l with
  | [] => none
  | c :: rest =>
      match lastIdxIn rest marks with
      | some i => some (i + 1)
      | none => if c ∈ marks then some 0 else none

/-- Count of occurrences of quote characters of `qs` in `l`
(`sum(text_before.count(q) for q in qs)`, lines 195–196). -/
def countQuotes (qs : List Char) (l : List Char) : Nat :=
  (qs.map fun q => l.count q).sum

/-- The `for i in range(search_limit)` loop of `_handle_quote_break`
(lines 206–225): at each right-quote position compute the candidate
extended length and return it if its width is acceptable, else keep
scanning. -/
def quoteScan (m : Measure) (text : List Char) (maxLength : Nat) (aw : Nat)
    (remaining : List Char) : Nat → Nat → Nat
  | _, 0 => maxLength
  | i, limit + 1 =>
      if remaining.getD i ' ' ∈ right_quotes then
        let newLength := maxLength + i + 1
        let newLength' :=
          if newLength < text.length ∧ text.getD newLength ' ' ∈ quote_tail_marks ∧
              10 * m (text.take (newLength + 1)) ≤ 11 * aw then
            newLength + 1
          else newLength
        if 20 * m (text.take newLength') ≤ 23 * aw then newLength'
        else quoteScan m text maxLength aw remaining (i + 1) limit
      else quoteScan m text maxLength aw remaining (i + 1) limit

/-- `_handle_quote_break` (lines 175–228). -/
def handleQuoteBreak (m : Measure) (text : List Char) (maxLength : Nat)
    (aw : Nat) : Nat :=
  let textBefore := text.take maxLength
  let leftCount := countQuotes left_quotes textBefore
  let rightCount := countQuotes right_quotes textBefore
  if leftCount > rightCount then
    let remaining := text.drop maxLength
    let searchLimit := min remaining.length (maxLength / 2)
    quoteScan m text maxLength aw remaining 0 searchLimit
  else maxLength

/-- `_find_best_break_point` (lines 117–173). -/
def findBestBreakPoint (m : Measure) (text : List Char) (maxLength : Nat)
    (aw : Nat) : Nat :=
  if maxLength ≤ 0 ∨ maxLength ≥ text.length then maxLength
  else
    if text.getD maxLength ' ' ∈ sentence_end_marks ∧
        10 * m (text.take (maxLength + 1)) ≤ 11 * aw then
      maxLength + 1
    else
      let quoteResult := handleQuoteBreak m text maxLength aw
      if quoteResult ≠ maxLength then quoteResult
      else
        let searchStart := 7 * maxLength / 10
        let searchText := (text.take (maxLength + 1)).drop searchStart
        match lastIdxIn searchText sentence_end_marks with
        | some i => searchStart + i + 1
        | none =>
          match lastIdxIn searchText pause_marks with
          | some i => searchStart + i + 1
          | none =>
            match lastIdxIn searchText other_marks with
            | some i => searchStart + i + 1
            | none =>
              match lastIdxIn searchText [' '] with
              | some i => searchStart + i + 1
              | none => maxLength

/-- `_get_display_line_length` (lines 90–115). -/
def getDisplayLineLength (m : Measure) (text : List Char) (aw : Nat) : Nat :=
  if text = [] then 0
  else
    let result := binSearchFit m text aw
    if result > 0 then findBestBreakPoint m text result aw
    else result

/-! ### Engine state (`LineTextWidget.__init__`, lines 30–50) -/

/-- The mutable state of `LineTextWidget` relevant to the navigation
engine: `_full_text`, `_text_length`, `_current_pos`,
`_position_history`, `_last_width`. -/
structure Engine where
  full_text : List Char
  text_length : Nat
  current_pos : Nat
  position_history : List Nat
  last_width : Nat
deriving DecidableEq

/-- `self._max_history = 100` (line 44). -/
def maxHistory : Nat := 100

/-- The engine right after `__init__`. -/
def initEngine : Engine := ⟨[], 0, 0, [], 0⟩

/-- The signals one call can emit: `reached_end`, `reached_start`, and the
number of `progress_changed` emissions (each `_emit_progress` call emits
exactly one). -/
structure Events where
  reachedEnd : Bool
  reachedStart : Bool
  progressCount : Nat
deriving DecidableEq

def noEvents : Events := ⟨false, false, 0⟩
def endEvent : Events := ⟨true, false, 0⟩
def startEvent : Events := ⟨false, true, 0⟩
def progressEvent : Events := ⟨false, false, 1⟩

/-- `setText` (lines 52–67): normalize, reset cursor and history, emit
progress once. -/
def setText (raw : List Char) (_e : Engine) : Engine × Events :=
  let ft := if raw ≠ [] then normalizeText raw else []
  (⟨ft, ft.length, 0, [], 0⟩, progressEvent)

/-- `_get_current_line_text` (lines 79–88): the tail of the buffer from the
(clamped) current position. -/
def getCurrentLineText (e : Engine) : List Char :=
  if e.full_text = [] then []
  else
    let pos := if 0 < e.text_length then min e.current_pos (e.text_length - 1) else 0
    e.full_text.drop pos

/-- `_add_to_history` (lines 256–261): append `pos` unless it already tops
the history; evict the oldest entry past `maxHistory`. -/
def addToHistory (pos : Nat) (h : List Nat) : List Nat :=
  if h.getLast? ≠ some pos then
    if maxHistory < (h ++ [pos]).length then (h ++ [pos]).drop 1 else h ++ [pos]
  else h

/-- The break length `nextLine` actually advances by: `display_length`
from `_get_display_line_length` on the current tail with
`available_width = max(10, self.width() - 20)`, forced to `1` when `0`
(lines 274–286). -/
def effectiveBreakLength (m : Measure) (w : Nat) (e : Engine) : Nat :=
  let d := getDisplayLineLength m (getCurrentLineText e) (max 10 (w - 20))
  if d = 0 then 1 else d

/-- `nextLine` (lines 263–301).  `w` is the widget width `self.width()`. -/
def nextLine (m : Measure) (w : Nat) (e : Engine) : Engine × Events :=
  if e.full_text = [] then (e, noEvents)
  else if getCurrentLineText e = [] then (e, endEvent)
  else
    let e₁ :=
      if w ≠ e.last_width then { e with position_history := [], last_width := w } else e
    let displayLength := effectiveBreakLength m w e
    let e₂ := { e₁ with position_history := addToHistory e₁.current_pos e₁.position_history }
    let newPos := e₂.current_pos + displayLength
    if e₂.text_length ≤ newPos then (e₂, endEvent)
    else ({ e₂ with current_pos := newPos }, progressEvent)

/-- The `while pos < self._current_pos` walk of `prevLine`'s slow path
(lines 338–352).  `fuel` only bounds the iteration count; `target + 1` is
always enough since `pos` strictly increases each pass. -/
def prevLoop (m : Measure) (aw : Nat) (ft : List Char) (target : Nat) :
    Nat → Nat → Nat → Nat
  | 0, _, prevStart => prevStart
  | fuel + 1, pos, prevStart =>
      if pos < target then
        let d := getDisplayLineLength m (ft.drop pos) aw
        let displayLen := if d = 0 then 1 else d
        if target ≤ pos + displayLen then prevStart
        else prevLoop m aw ft target fuel (pos + displayLen) pos
      else prevStart

/-- The average-line-length estimate of `prevLine`'s slow path (lines
326–333): run the break computation on the up-to-200 characters before
the cursor, defaulting to `50` on an empty sample and forcing `0` to
`1`. -/
def prevEstimate (m : Measure) (aw : Nat) (e : Engine) : Nat :=
  let sample := (e.full_text.take e.current_pos).drop (e.current_pos - 200)
  if sample ≠ [] then
    let a := getDisplayLineLength m sample aw
    if a = 0 then 1 else a
  else 50

/-- `prevLine` (lines 303–357): history fast path, else estimate a line
length from the preceding 200 characters and walk forward. -/
def prevLine (m : Measure) (w : Nat) (e : Engine) : Engine × Events :=
  if e.full_text = [] then (e, noEvents)
  else if e.current_pos = 0 then (e, startEvent)
  else if 2 ≤ e.position_history.length then
    let h := e.position_history.dropLast
    ({ e with current_pos := h.getLastD 0, position_history := h }, progressEvent)
  else
    let searchStart := e.current_pos - 3 * prevEstimate m (max 10 (w - 20)) e
    let prev :=
      prevLoop m (max 10 (w - 20)) e.full_text e.current_pos (e.current_pos + 1)
        searchStart searchStart
    ({ e with current_pos := prev, position_history := [] }, progressEvent)

/-- `firstLine` (lines 359–365). -/
def firstLine (e : Engine) : Engine × Events :=
  if e.current_pos ≠ 0 then
    ({ e with current_pos := 0, position_history := [] }, progressEvent)
  else (e, noEvents)

/-- The `while pos < self._text_length` walk of `lastLine` (lines
388–400); both branches record `pos` into `last_display_start` before
moving or breaking. -/
def lastLoop (m : Measure) (aw : Nat) (ft : List Char) (len : Nat) :
    Nat → Nat → Nat → Nat
  | 0, _, last => last
  | fuel + 1, pos, last =>
      if pos < len then
        let d := getDisplayLineLength m (ft.drop pos) aw
        let displayLen := if d = 0 then 1 else d
        if len ≤ pos + displayLen then pos
        else lastLoop m aw ft len fuel (pos + displayLen) pos
      else last

/-- The average-line-length estimate of `lastLine` (lines 375–380): run
the break computation on the final `min 500 length` characters, forcing
`0` to `1`.  Python's `t[-k:]` slice is the whole string when `k = 0`. -/
def lastEstimate (m : Measure) (aw : Nat) (e : Engine) : Nat :=
  let sampleSize := min 500 e.text_length
  let sample :=
    if sampleSize = 0 then e.full_text
    else e.full_text.drop (e.full_text.length - sampleSize)
  let a := getDisplayLineLength m sample aw
  if a = 0 then 1 else a

/-- `lastLine` (lines 367–405): estimate an average line length from the
final `min 500 length` characters and walk forward from
`length - 2 * avg`. -/
def lastLine (m : Measure) (w : Nat) (e : Engine) : Engine × Events :=
  if e.full_text = [] then (e, noEvents)
  else
    let estimated := e.text_length - 2 * lastEstimate m (max 10 (w - 20)) e
    let last :=
      lastLoop m (max 10 (w - 20)) e.full_text e.text_length (e.text_length + 1)
        estimated estimated
    ({ e with current_pos := last, position_history := [] }, progressEvent)

/-- `setPosition` (lines 436–446): clamp into `[0, length - 1]`, clear
history, emit progress; on an empty buffer just reset the cursor. -/
def setPosition (index : Int) (e : Engine) : Engine × Events :=
  if e.full_text = [] then ({ e with current_pos := 0 }, noEvents)
  else
    let p : Nat :=
      if 0 < e.text_length then (max 0 (min index ((e.text_length : Int) - 1))).toNat
      else 0
    ({ e with current_pos := p, position_history := [] }, progressEvent)

/-- `setProgress` (lines 448–456): clamp the fraction into `[0, 1]` and
delegate to `setPosition` at `int(length * progress)`. -/
def setProgress (progress : ℚ) (e : Engine) : Engine × Events :=
  if e.full_text = [] then ({ e with current_pos := 0 }, noEvents)
  else
    let p := max 0 (min 1 progress)
    setPosition ⌊(e.text_length : ℚ) * p⌋ e

/-- `getProgress` (lines 458–462). -/
def getProgress (e : Engine) : ℚ :=
  if e.text_length = 0 then 0
  else (e.current_pos : ℚ) / (e.text_length : ℚ)

/-- `getCurrentCharIndex` (lines 464–466). -/
def getCurrentCharIndex (e : Engine) : Nat :=
  e.current_pos

/-- `resizeEvent` (lines 499–504): clear the history cache and the
remembered width; the cursor and buffer are untouched. -/
def resizeEvent (e : Engine) : Engine × Events :=
  ({ e with position_history := [], last_width := 0 }, noEvents)

/-! ### Reachable states -/

/-- One engine operation, with its per-call host inputs (widget width `w`,
seek index, progress fraction, raw text). -/
inductive Step (m : Measure) : Engine → Engine → Prop
  | load (raw : List Char) (e : Engine) : Step m e (setText raw e).1
  | advance (w : Nat) (e : Engine) : Step m e (nextLine m w e).1
  | retreat (w : Nat) (e : Engine) : Step m e (prevLine m w e).1
  | seekFirst (e : Engine) : Step m e (firstLine e).1
  | seekLast (w : Nat) (e : Engine) : Step m e (lastLine m w e).1
  | seekOffset (i : Int) (e : Engine) : Step m e (setPosition i e).1
  | seekProgress (p : ℚ) (e : Engine) : Step m e (setProgress p e).1
  | resize (e : Engine) : Step m e (resizeEvent e).1

/-- States reachable from a freshly constructed widget by any sequence of
load / advance / retreat / seek / resize operations. -/
def Reachable (m : Measure) (e : Engine) : Prop :=
  Relation.ReflTransGen (Step m) initEngine e

/-- The engine's state invariant: the cached length is the buffer length,
the cursor is in range (`0` on an empty buffer), and the position history
is a bounded strictly increasing list whose top does not exceed the
cursor. -/
def Inv (e : Engine) : Prop :=
  e.text_length = e.full_text.length ∧
  (e.text_length = 0 → e.current_pos = 0) ∧
  (0 < e.text_length → e.current_pos < e.text_length) ∧
  e.position_history.length ≤ maxHistory ∧
  e.position_history.Pairwise (· < ·) ∧
  ∀ x ∈ e.position_history.getLast?, x ≤ e.current_pos

/-! ### Basic lemmas -/

/-- In the source bytes `left_quotes` and `right_quotes` are the same two
ASCII double-quote characters, so `left_count > right_count` never holds
and `_handle_quote_break` always returns `max_length` unchanged. -/
lemma handleQuoteBreak_eq (m : Measure) (text : List Char) (maxLength aw : Nat) :
    handleQuoteBreak m text maxLength aw = maxLength := by
  unfold handleQuoteBreak
  simp [left_quotes, right_quotes]

/-- `_find_best_break_point` never returns `0` when handed a positive
`max_length`. -/
lemma findBestBreakPoint_pos (m : Measure) (text : List Char) (maxLength aw : Nat)
    (h : 1 ≤ maxLength) : 1 ≤ findBestBreakPoint m text maxLength aw := by
  unfold findBestBreakPoint
  split
  · exact h
  · split
    · omega
    · rw [handleQuoteBreak_eq]
      simp only [ne_eq, not_true_eq_false, if_false, ite_false]
      split <;> try omega
      split <;> try omega
      split <;> try omega
      split <;> omega

/-- On a non-empty buffer with a valid cursor, the current tail is the
drop at the cursor and is non-empty. -/
lemma getCurrentLineText_eq (e : Engine) (hft : e.full_text ≠ [])
    (hlen : e.text_length = e.full_text.length) (hpos : e.current_pos < e.text_length) :
    getCurrentLineText e = e.full_text.drop e.current_pos ∧
      getCurrentLineText e ≠ [] := by
  have h0 : 0 < e.text_length := by
    rw [hlen]
    exact List.length_pos.mpr hft
  have hmin : min e.current_pos (e.text_length - 1) = e.current_pos := by omega
  constructor
  · unfold getCurrentLineText
    rw [if_neg hft, if_pos h0, hmin]
  · unfold getCurrentLineText
    rw [if_neg hft, if_pos h0, hmin]
    intro hnil
    have := List.drop_eq_nil_iff.mp hnil
    omega

/-- Unfolding of `nextLine` on a non-empty buffer with a valid cursor:
the buffer is untouched; with `k` the effective break length, the call
either signals reached-end (cursor unchanged) or advances the cursor by
`k`; in both cases the history is cleared if the width changed and then
receives the pre-call cursor. -/
lemma nextLine_spec (m : Measure) (w : Nat) (e : Engine) (hft : e.full_text ≠ [])
    (hlen : e.text_length = e.full_text.length) (hpos : e.current_pos < e.text_length) :
    (e.text_length ≤ e.current_pos + effectiveBreakLength m w e →
      nextLine m w e =
        ({ (if w ≠ e.last_width then
              { e with position_history := [], last_width := w } else e) with
            position_history :=
              addToHistory e.current_pos
                (if w ≠ e.last_width then [] else e.position_history) },
          endEvent)) ∧
    (e.current_pos + effectiveBreakLength m w e < e.text_length →
      nextLine m w e =
        ({ (if w ≠ e.last_width then
              { e with position_history := [], last_width := w } else e) with
            position_history :=
              addToHistory e.current_pos
                (if w ≠ e.last_width then [] else e.position_history),
            current_pos := e.current_pos + effectiveBreakLength m w e },
          progressEvent)) := by
  have hct := getCurrentLineText_eq e hft hlen hpos
  unfold nextLine
  rw [if_neg hft, if_neg hct.2]
  by_cases hw : w ≠ e.last_width
  · simp only [if_pos hw]
    constructor
    · intro hend
      rw [if_pos hend]
    · intro hgo
      rw [if_neg (by omega)]
  · simp only [if_neg hw]
    constructor
    · intro hend
      rw [if_pos hend]
    · intro hgo
      rw [if_neg (by omega)]

/-- Claim C8: a width change (`resizeEvent`) clears the Position History
and leaves both the cursor and the Document Buffer unchanged. -/
theorem resize_clears_history_keeps_position (e : Engine) :
    (resizeEvent e).1.position_history = [] ∧
    (resizeEvent e).1.current_pos = e.current_pos ∧
    (resizeEvent e).1.full_text = e.full_text ∧
    (resizeEvent e).1.text_length = e.text_length :=
  ⟨rfl, rfl, rfl, rfl⟩

/-- Claim C5: after `setPosition x`, `getCurrentCharIndex` returns `x`
clamped into `[0, length - 1]`, or `0` when the buffer is empty. -/
theorem seek_roundtrip (e : Engine) (x : Int)
    (hlen : e.text_length = e.full_text.length) :
    getCurrentCharIndex (setPosition x e).1 =
      if e.full_text = [] then 0
      else (max 0 (min x ((e.text_length : Int) - 1))).toNat := by
  unfold setPosition getCurrentCharIndex
  by_cases hft : e.full_text = []
  · rw [if_pos hft, if_pos hft]
  · have h0 : 0 < e.text_length := by
      rw [hlen]
      exact List.length_pos.mpr hft
    rw [if_neg hft, if_neg hft]
    simp only [if_pos h0]

/-- Witness for C5 at the loaded buffer `"hi"` and arguments `-3` and `5`. -/
theorem seek_roundtrip_witness :
    getCurrentCharIndex (setPosition (-3) (setText ('h' :: 'i' :: []) initEngine).1).1 = 0 ∧
    getCurrentCharIndex (setPosition 5 (setText ('h' :: 'i' :: []) initEngine).1).1 = 1 := by
  constructor
  · rw [seek_roundtrip (setText ('h' :: 'i' :: []) initEngine).1 (-3) (by decide)]
    decide
  · rw [seek_roundtrip (setText ('h' :: 'i' :: []) initEngine).1 5 (by decide)]
    decide

/-- Claim C10: on an empty buffer, `setPosition` and `setProgress` leave
the cursor at `0` and emit no progress notification; on a non-empty
buffer each call emits exactly one. -/
theorem empty_seek_noop_nonempty_emits (e : Engine) (i : Int) (p : ℚ) :
    (e.full_text = [] →
      (setPosition i e).1.current_pos = 0 ∧ (setPosition i e).2.progressCount = 0 ∧
      (setProgress p e).1.current_pos = 0 ∧ (setProgress p e).2.progressCount = 0) ∧
    (e.full_text ≠ [] →
      (setPosition i e).2.progressCount = 1 ∧ (setProgress p e).2.progressCount = 1) := by
  constructor
  · intro hft
    unfold setPosition setProgress
    simp [hft, noEvents]
  · intro hft
    unfold setProgress setPosition
    simp [hft, progressEvent]

/-- Witness for C10 at the empty engine and at the loaded buffer `"hi"`. -/
theorem empty_seek_noop_nonempty_emits_witness :
    (setPosition 7 initEngine).1.current_pos = 0 ∧
    (setPosition 7 initEngine).2.progressCount = 0 ∧
    (setProgress (1 / 2 : ℚ) initEngine).2.progressCount = 0 ∧
    (setPosition 7 (setText ('h' :: 'i' :: []) initEngine).1).2.progressCount = 1 ∧
    (setProgress (1 / 2 : ℚ) (setText ('h' :: 'i' :: []) initEngine).1).2.progressCount = 1 := by
  have h₁ := empty_seek_noop_nonempty_emits initEngine 7 (1 / 2 : ℚ)
  have h₂ :=
    empty_seek_noop_nonempty_emits (setText ('h' :: 'i' :: []) initEngine).1 7 (1 / 2 : ℚ)
  have he : initEngine.full_text = [] := rfl
  have hne : (setText ('h' :: 'i' :: []) initEngine).1.full_text ≠ [] := by decide
  obtain ⟨ha, _, hc, _⟩ := h₁.1 he
  obtain ⟨hd, hf⟩ := h₂.2 hne
  exact ⟨ha, by exact (h₁.1 he).2.1, hc, hd, hf⟩

/-! ### Binary-search lower bound -/

/-- Prefix monotonicity transfers to the `take` lengths used by the
binary search. -/
lemma measure_take_mono (m : Measure) (text : List Char)
    (hm : MonotoneMeasure m) {a b : Nat} (hab : a ≤ b) :
    m (text.take a) ≤ m (text.take b) := by
  apply hm
  have h₁ : (text.take b).take a = text.take a := by
    rw [List.take_take, min_eq_left hab]
  rw [← h₁]
  exact List.take_prefix a (text.take b)

/-- Loop invariant of the binary search: any fitting prefix length `k` is
a lower bound on the final `result`, provided the measure is monotone.
The three universally quantified invariants say: `result` never exceeds
`left`; fitting lengths below `left` are already bounded by `result`;
every fitting length is either still inside `[·, right]` or bounded by
`result`.  The fuel hypothesis guarantees the loop ends by `left > right`,
never by fuel exhaustion. -/
lemma bsLoop_ge (m : Measure) (text : List Char) (aw : Nat)
    (hm : MonotoneMeasure m) (k : Nat) (hk : k ≤ text.length)
    (hPk : m (text.take k) ≤ aw) :
    ∀ (fuel : Nat) (left right : Int) (result : Nat),
      0 ≤ left →
      right + 1 - left ≤ (fuel : Int) →
      (result : Int) ≤ left →
      (∀ j : Nat, j ≤ text.length → m (text.take j) ≤ aw → (j : Int) < left → j ≤ result) →
      (∀ j : Nat, j ≤ text.length → m (text.take j) ≤ aw → ((j : Int) ≤ right ∨ j ≤ result)) →
      k ≤ bsLoop m text aw fuel left right result := by
  intro fuel
  induction fuel with
  | zero =>
    intro left right result hl hfuel hE hC hB
    simp only [bsLoop]
    rcases hB k hk hPk with h | h
    · exact hC k hk hPk (by omega)
    · exact h
  | succ n ih =>
    intro left right result hl hfuel hE hC hB
    simp only [bsLoop]
    split
    case isTrue hlr =>
      have hmid_lb : left ≤ (left + right) / 2 := by omega
      have hmid_ub : (left + right) / 2 ≤ right := by omega
      have hmid0 : 0 ≤ (left + right) / 2 := le_trans hl hmid_lb
      split
      case isTrue hfit =>
        apply ih ((left + right) / 2 + 1) right (((left + right) / 2).toNat)
          (by omega) (by omega) (by omega) ?_ ?_
        · intro j _ _ hjlt
          omega
        · intro j hj hPj
          rcases hB j hj hPj with h | h
          · exact Or.inl h
          · exact Or.inr (by omega)
      case isFalse hfit =>
        apply ih left ((left + right) / 2 - 1) result hl (by omega) hE hC ?_
        intro j hj hPj
        rcases hB j hj hPj with h | h
        · left
          by_contra hgt
          push_neg at hgt
          have hmj : ((left + right) / 2).toNat ≤ j := by omega
          exact hfit (le_trans (measure_take_mono m text hm hmj) hPj)
        · exact Or.inr h
    case isFalse hlr =>
      rcases hB k hk hPk with h | h
      · exact hC k hk hPk (by omega)
      · exact h

/-- Any fitting prefix length bounds the binary-search result from below
(monotone measure). -/
lemma binSearchFit_ge (m : Measure) (text : List Char) (aw : Nat)
    (hm : MonotoneMeasure m) (k : Nat) (hk : k ≤ text.length)
    (hPk : m (text.take k) ≤ aw) :
    k ≤ binSearchFit m text aw := by
  apply bsLoop_ge m text aw hm k hk hPk (text.length + 2) 0 (text.length : Int) 0
    le_rfl (by push_cast; omega) le_rfl
  · intro j _ _ hj
    omega
  · intro j hj _
    exact Or.inl (by exact_mod_cast hj)

/-! ### Claims C3 and C4: break-length computation -/

/-- Counterexample to claim C3 as stated: for the non-empty text `"W"`
and available width `1 ≥ 1`, with the monotone measure giving every
character width `100`, `_get_display_line_length` returns `0`, not `≥ 1`
(the forcing of `0` to `1` happens in the callers, not here). -/
theorem breakLength_lower_bound_cex :
    (['W'] : List Char) ≠ [] ∧
    MonotoneMeasure (fun l => 100 * l.length) ∧
    getDisplayLineLength (fun l => 100 * l.length) ['W'] 1 = 0 := by
  refine ⟨by decide, ?_, by decide⟩
  intro l₁ l₂ h
  simpa using Nat.mul_le_mul_left 100 h.length_le

/-- Claim C3, amended: for non-empty `text` and any `aw ≥ 1`, with a
monotone measure, `_get_display_line_length` returns at least `1`
whenever the first character fits (`measure(text[:1]) ≤ aw`); when even a
single character overflows it can return `0`, which every navigation
caller forces to `1`. -/
theorem breakLength_lower_bound (m : Measure) (text : List Char) (aw : Nat)
    (hm : MonotoneMeasure m) (hne : text ≠ []) (haw : 1 ≤ aw)
    (hfit : m (text.take 1) ≤ aw) :
    1 ≤ getDisplayLineLength m text aw := by
  have h1 : 1 ≤ text.length := List.length_pos.mpr hne
  have hbs : 1 ≤ binSearchFit m text aw := binSearchFit_ge m text aw hm 1 h1 hfit
  unfold getDisplayLineLength
  rw [if_neg hne]
  simp only [gt_iff_lt]
  rw [if_pos (by omega : 0 < binSearchFit m text aw)]
  exact findBestBreakPoint_pos m text _ aw hbs

/-- Witness for the amended C3 at `text = "ab"`, `aw = 1`, measure =
character count. -/
theorem breakLength_lower_bound_witness :
    1 ≤ getDisplayLineLength (fun l : List Char => l.length) ['a', 'b'] 1 :=
  breakLength_lower_bound (fun l : List Char => l.length) ['a', 'b'] 1
    (fun _ _ h => h.length_le) (by decide) le_rfl (by decide)

/-- Counterexample to claim C4 as stated: the source's sentence-end set
`'。！？!?；;'` lacks the Western full stop `'.'`.  For
`text = "aaaaaaaaaa."` with character-count measure and `aw = 10`, the
binary search yields `k = 10`, the character after `k` is `'.'`, and
including it stays within `aw * 1.1` (`10 * 11 ≤ 11 * 10`), yet the
returned break length is `10`, not the claimed `k + 1 = 11`. -/
theorem punctuation_extension_cex :
    binSearchFit (fun l : List Char => l.length)
      ['a', 'a', 'a', 'a', 'a', 'a', 'a', 'a', 'a', 'a', '.'] 10 = 10 ∧
    (['a', 'a', 'a', 'a', 'a', 'a', 'a', 'a', 'a', 'a', '.'].getD 10 ' ' = '.') ∧
    10 * ((['a', 'a', 'a', 'a', 'a', 'a', 'a', 'a', 'a', 'a', '.'] : List Char).take
      (10 + 1)).length ≤ 11 * 10 ∧
    getDisplayLineLength (fun l : List Char => l.length)
      ['a', 'a', 'a', 'a', 'a', 'a', 'a', 'a', 'a', 'a', '.'] 10 = 10 := by
  refine ⟨by decide, by decide, by decide, by decide⟩

/-- Claim C4, amended: when the character immediately after the
binary-search result `k` belongs to the source's sentence-end set
(CJK full stop, Western and CJK exclamation mark, question mark and
semicolon — but not the Western full stop `'.'`), and the measured width
of `text[:k+1]` does not exceed `availableWidth * 1.10`, the returned
break length is `k + 1`. -/
theorem punctuation_extension (m : Measure) (text : List Char) (aw : Nat)
    (hk0 : 0 < binSearchFit m text aw)
    (hklen : binSearchFit m text aw < text.length)
    (hmark : text.getD (binSearchFit m text aw) ' ' ∈ sentence_end_marks)
    (hwidth : 10 * m (text.take (binSearchFit m text aw + 1)) ≤ 11 * aw) :
    getDisplayLineLength m text aw = binSearchFit m text aw + 1 := by
  have hne : text ≠ [] := by
    intro h
    rw [h] at hklen
    simp at hklen
  unfold getDisplayLineLength
  rw [if_neg hne]
  simp only [gt_iff_lt]
  rw [if_pos hk0]
  unfold findBestBreakPoint
  rw [if_neg (by push_neg; omega)]
  rw [if_pos ⟨hmark, hwidth⟩]

/-- Witness for the amended C4 at `text = "aaaaaaaaaa！"`, `aw = 10`,
measure = character count: the full-width exclamation mark is included,
giving break length `11`. -/
theorem punctuation_extension_witness :
    getDisplayLineLength (fun l : List Char => l.length)
      ['a', 'a', 'a', 'a', 'a', 'a', 'a', 'a', 'a', 'a', '！'] 10 = 11 := by
  have h := punctuation_extension (fun l : List Char => l.length)
    ['a', 'a', 'a', 'a', 'a', 'a', 'a', 'a', 'a', 'a', '！'] 10
    (by decide) (by decide) (by decide) (by decide)
  rw [h]
  decide

/-! ### Claims C1 and C2: forward navigation -/

/-- The effective break length is always at least `1` (the `display_length
== 0` forcing of lines 285–286). -/
lemma effectiveBreakLength_pos (m : Measure) (w : Nat) (e : Engine) :
    1 ≤ effectiveBreakLength m w e := by
  simp only [effectiveBreakLength]
  split <;> omega

/-- The engine after `n` repeated `nextLine` calls at fixed width `w`. -/
def advanceRun (m : Measure) (w : Nat) (e : Engine) : Nat → Engine
  | 0 => e
  | n + 1 => (nextLine m w (advanceRun m w e n)).1

/-- The first `n` repeated `nextLine` calls at fixed width `w` all succeed
(none signals `reached_end`). -/
def advancesOK (m : Measure) (w : Nat) (e : Engine) (n : Nat) : Prop :=
  ∀ i, i < n → (nextLine m w (advanceRun m w e i)).2.reachedEnd = false

/-- Field-level consequences of one `nextLine` call on a valid state: the
buffer never changes, a successful call advances the cursor by the
effective break length and stays in range, and an end-signalling call
leaves the cursor unchanged. -/
lemma nextLine_fields (m : Measure) (w : Nat) (e : Engine) (hft : e.full_text ≠ [])
    (hlen : e.text_length = e.full_text.length) (hpos : e.current_pos < e.text_length) :
    (nextLine m w e).1.full_text = e.full_text ∧
    (nextLine m w e).1.text_length = e.text_length ∧
    ((nextLine m w e).2.reachedEnd = false →
      (nextLine m w e).1.current_pos = e.current_pos + effectiveBreakLength m w e ∧
      (nextLine m w e).1.current_pos < e.text_length) ∧
    ((nextLine m w e).2.reachedEnd = true →
      (nextLine m w e).1.current_pos = e.current_pos) := by
  obtain ⟨hend, hgo⟩ := nextLine_spec m w e hft hlen hpos
  rcases le_or_lt e.text_length (e.current_pos + effectiveBreakLength m w e) with h | h
  · rw [hend h]
    by_cases hw : w ≠ e.last_width <;> simp [hw, endEvent]
  · rw [hgo h]
    by_cases hw : w ≠ e.last_width <;> simp [hw, progressEvent] <;> omega

/-- Induction along a run of successful advances: the buffer is fixed, the
cursor stays in range and has advanced by at least `n`. -/
lemma advanceRun_spec (m : Measure) (w : Nat) (e : Engine)
    (hft : e.full_text ≠ []) (hlen : e.text_length = e.full_text.length)
    (hpos : e.current_pos < e.text_length) :
    ∀ n, advancesOK m w e n →
      (advanceRun m w e n).full_text = e.full_text ∧
      (advanceRun m w e n).text_length = e.text_length ∧
      (advanceRun m w e n).current_pos < e.text_length ∧
      e.current_pos + n ≤ (advanceRun m w e n).current_pos := by
  intro n
  induction n with
  | zero =>
    intro _
    exact ⟨rfl, rfl, hpos, by simp [advanceRun]⟩
  | succ k ih =>
    intro hok
    have hok' : advancesOK m w e k := fun i hi => hok i (by omega)
    obtain ⟨ihft, ihlen, ihpos, ihadv⟩ := ih hok'
    have hstep := nextLine_fields m w (advanceRun m w e k)
      (ihft ▸ hft) (by rw [ihft, ihlen]; exact hlen) (by omega)
    have hsig := hok k (by omega)
    obtain ⟨hadv, hlt⟩ := hstep.2.2.1 hsig
    have hebl := effectiveBreakLength_pos m w (advanceRun m w e k)
    refine ⟨?_, ?_, ?_, ?_⟩
    · show (nextLine m w (advanceRun m w e k)).1.full_text = e.full_text
      rw [hstep.1, ihft]
    · show (nextLine m w (advanceRun m w e k)).1.text_length = e.text_length
      rw [hstep.2.1, ihlen]
    · show (nextLine m w (advanceRun m w e k)).1.current_pos < e.text_length
      omega
    · show e.current_pos + (k + 1) ≤ (nextLine m w (advanceRun m w e k)).1.current_pos
      rw [hadv]
      omega

/-- Claim C1: on a loaded non-empty buffer with a fixed width and a fixed
monotone measure, each successful `nextLine` strictly increases
`current_pos` (so positions never decrease and never repeat), and the
number of successful advances before `reached_end` is at most `length`. -/
theorem advance_strict_monotone (m : Measure) (w : Nat) (e : Engine) (n : Nat)
    (hm : MonotoneMeasure m) (hft : e.full_text ≠ [])
    (hlen : e.text_length = e.full_text.length)
    (hpos : e.current_pos < e.text_length)
    (hok : advancesOK m w e n) :
    (∀ i, i < n →
      (advanceRun m w e i).current_pos < (advanceRun m w e (i + 1)).current_pos) ∧
    n ≤ e.text_length := by
  constructor
  · intro i hi
    have hoki : advancesOK m w e i := fun j hj => hok j (by omega)
    obtain ⟨ihft, ihlen, ihpos, _⟩ := advanceRun_spec m w e hft hlen hpos i hoki
    have hstep := nextLine_fields m w (advanceRun m w e i)
      (ihft ▸ hft) (by rw [ihft, ihlen]; exact hlen) (by omega)
    obtain ⟨hadv, _⟩ := hstep.2.2.1 (hok i hi)
    have hebl := effectiveBreakLength_pos m w (advanceRun m w e i)
    show (advanceRun m w e i).current_pos < (nextLine m w (advanceRun m w e i)).1.current_pos
    omega
  · obtain ⟨_, _, hlt, hadv⟩ := advanceRun_spec m w e hft hlen hpos n hok
    omega

/-- Witness for C1: `"aaaaa bbbbb ccccc"` loaded at widget width `26`
(available width `max(10, 26-20) = 10`) with the character-count measure;
the first advance succeeds and strictly increases the cursor
(from `0` to `10`). -/
theorem advance_strict_monotone_witness :
    (advanceRun (fun l : List Char => l.length) 26
        (setText "aaaaa bbbbb ccccc".data initEngine).1 0).current_pos <
      (advanceRun (fun l : List Char => l.length) 26
        (setText "aaaaa bbbbb ccccc".data initEngine).1 1).current_pos ∧
    (1 : Nat) ≤ (setText "aaaaa bbbbb ccccc".data initEngine).1.text_length := by
  have h := advance_strict_monotone (fun l : List Char => l.length) 26
    (setText "aaaaa bbbbb ccccc".data initEngine).1 1
    (fun _ _ hp => hp.length_le) (by decide) (by decide) (by decide)
    (by unfold advancesOK; decide)
  exact ⟨h.1 0 (by omega), h.2⟩

/-- Counterexample to claim C2 as stated: loading `"hi"` with width
`1000` (available width `980` fits the whole string), a single `advance`
signals reached-end and keeps `position = 0` — but the Position History
is *not* unchanged: the current position is pushed onto it (line 289 runs
before the end check of line 295), so it changes from `[]` to `[0]`. -/
theorem advance_end_no_state_change_cex :
    (nextLine (fun l : List Char => l.length) 1000
        (setText ('h' :: 'i' :: []) initEngine).1).2.reachedEnd = true ∧
    (nextLine (fun l : List Char => l.length) 1000
        (setText ('h' :: 'i' :: []) initEngine).1).1.current_pos = 0 ∧
    (nextLine (fun l : List Char => l.length) 1000
        (setText ('h' :: 'i' :: []) initEngine).1).1.position_history ≠
      (setText ('h' :: 'i' :: []) initEngine).1.position_history := by
  refine ⟨by decide, by decide, by decide⟩

/-- Claim C2, amended: when `nextLine` computes a break length `k` with
`position + k ≥ length`, it signals reached-end and leaves `position` and
the Document Buffer unchanged; the Position History, however, is first
cleared if the width changed and then receives the current position
(so it does change in general).  In particular on `"hi"` with a width
fitting the whole string, one advance signals reached-end with
`position` still `0`. -/
theorem advance_end_spec (m : Measure) (w : Nat) (e : Engine)
    (hft : e.full_text ≠ []) (hlen : e.text_length = e.full_text.length)
    (hpos : e.current_pos < e.text_length)
    (hend : e.text_length ≤ e.current_pos + effectiveBreakLength m w e) :
    (nextLine m w e).2.reachedEnd = true ∧
    (nextLine m w e).1.current_pos = e.current_pos ∧
    (nextLine m w e).1.full_text = e.full_text ∧
    (nextLine m w e).1.text_length = e.text_length ∧
    (nextLine m w e).1.position_history =
      addToHistory e.current_pos
        (if w ≠ e.last_width then [] else e.position_history) := by
  obtain ⟨hendSpec, _⟩ := nextLine_spec m w e hft hlen hpos
  rw [hendSpec hend]
  by_cases hw : w ≠ e.last_width <;> simp [hw, endEvent]

/-- Witness for the amended C2: the `"hi"` scenario; the end signal
fires, the cursor stays `0`, and the history becomes `[0]`. -/
theorem advance_end_spec_witness :
    (nextLine (fun l : List Char => l.length) 1000
        (setText ('h' :: 'i' :: []) initEngine).1).2.reachedEnd = true ∧
    (nextLine (fun l : List Char => l.length) 1000
        (setText ('h' :: 'i' :: []) initEngine).1).1.current_pos = 0 := by
  have h := advance_end_spec (fun l : List Char => l.length) 1000
    (setText ('h' :: 'i' :: []) initEngine).1
    (by decide) (by decide) (by decide) (by decide)
  exact ⟨h.1, h.2.1⟩

/-! ### The state invariant is preserved by every operation -/

/-- In a strictly increasing list, every element is bounded by the last
one. -/
lemma mem_le_getLast? {l : List Nat} (hp : l.Pairwise (· < ·)) {x : Nat}
    (hx : x ∈ l) : ∀ y ∈ l.getLast?, x ≤ y := by
  intro y hy
  have hsplit := List.dropLast_append_getLast? y hy
  rw [← hsplit] at hp hx
  rw [List.pairwise_append] at hp
  rcases List.mem_append.mp hx with h | h
  · exact le_of_lt (hp.2.2 x h y (List.mem_singleton_self y))
  · rw [List.mem_singleton] at h
    omega

/-- In a strictly increasing list, every element except the last is
strictly below the last one. -/
lemma mem_dropLast_lt_getLast? {l : List Nat} (hp : l.Pairwise (· < ·)) {x : Nat}
    (hx : x ∈ l.dropLast) : ∀ y ∈ l.getLast?, x < y := by
  intro y hy
  have hsplit := List.dropLast_append_getLast? y hy
  rw [← hsplit] at hp
  rw [List.pairwise_append] at hp
  exact hp.2.2 x hx y (List.mem_singleton_self y)

/-- `_add_to_history` preserves the history invariant and always leaves
`pos` as the last entry. -/
lemma addToHistory_inv (pos : Nat) (h : List Nat)
    (hlen : h.length ≤ maxHistory) (hp : h.Pairwise (· < ·))
    (hlast : ∀ x ∈ h.getLast?, x ≤ pos) :
    (addToHistory pos h).length ≤ maxHistory ∧
    (addToHistory pos h).Pairwise (· < ·) ∧
    (addToHistory pos h).getLast? = some pos := by
  unfold addToHistory
  split
  case isTrue hne =>
    have hplt : ∀ x ∈ h, x < pos := by
      intro x hx
      cases hl? : h.getLast? with
      | none =>
        rw [List.getLast?_eq_none_iff] at hl?
        subst hl?
        cases hx
      | some y =>
        have h₁ := mem_le_getLast? hp hx y hl?
        have h₂ := hlast y hl?
        have h₃ : y ≠ pos := by
          intro hcon
          exact hne (by rw [hl?, hcon])
        omega
    have hpw : (h ++ [pos]).Pairwise (· < ·) := by
      rw [List.pairwise_append]
      exact ⟨hp, List.pairwise_singleton _ _, fun a ha b hb => by
        rw [List.mem_singleton] at hb
        subst hb
        exact hplt a ha⟩
    split
    case isTrue hlong =>
      refine ⟨?_, hpw.sublist (List.drop_sublist 1 _), ?_⟩
      · rw [List.length_drop, List.length_append]
        simp only [List.length_singleton]
        omega
      · have hne' : h ≠ [] := by
          intro hcon
          subst hcon
          simp [maxHistory] at hlong
        rw [List.drop_append_of_le_length (by
          simpa using List.length_pos.mpr hne')]
        exact List.getLast?_concat _
    case isFalse hshort =>
      refine ⟨?_, hpw, List.getLast?_concat _⟩
      rw [List.length_append] at hshort ⊢
      simp only [List.length_singleton] at hshort ⊢
      omega
  case isFalse heq =>
    push_neg at heq
    exact ⟨hlen, hp, heq⟩

/-- The `prevLine` slow-path walk never reaches `target`, provided its
accumulator starts below it. -/
lemma prevLoop_lt (m : Measure) (aw : Nat) (ft : List Char) (target : Nat) :
    ∀ (fuel pos prevStart : Nat), prevStart < target →
      prevLoop m aw ft target fuel pos prevStart < target := by
  intro fuel
  induction fuel with
  | zero =>
    intro pos prevStart hps
    exact hps
  | succ n ih =>
    intro pos prevStart hps
    simp only [prevLoop]
    split
    case isTrue hlt =>
      split
      · split
        · exact hps
        · exact ih _ _ hlt
      · split
        · exact hps
        · exact ih _ _ hlt
    case isFalse => exact hps

/-- The `lastLine` walk stays strictly below `len`, provided its
accumulator starts below it. -/
lemma lastLoop_lt (m : Measure) (aw : Nat) (ft : List Char) (len : Nat) :
    ∀ (fuel pos last : Nat), last < len →
      lastLoop m aw ft len fuel pos last < len := by
  intro fuel
  induction fuel with
  | zero =>
    intro pos last hl
    exact hl
  | succ n ih =>
    intro pos last hl
    simp only [lastLoop]
    split
    case isTrue hlt =>
      split
      · split
        · exact hlt
        · exact ih _ _ hlt
      · split
        · exact hlt
        · exact ih _ _ hlt
    case isFalse => exact hl

/-- The slow-path estimate is positive. -/
lemma prevEstimate_pos (m : Measure) (aw : Nat) (e : Engine) :
    1 ≤ prevEstimate m aw e := by
  simp only [prevEstimate]
  split
  · split <;> omega
  · omega

/-- The `lastLine` estimate is positive. -/
lemma lastEstimate_pos (m : Measure) (aw : Nat) (e : Engine) :
    1 ≤ lastEstimate m aw e := by
  simp only [lastEstimate]
  split <;> first | omega | (split <;> omega)

/-- Introduction rule for `Inv` on an explicit state, keeping each field
goal free of record projections. -/
lemma inv_mk {ft : List Char} {tl pos : Nat} {hist : List Nat} {lw : Nat}
    (h1 : tl = ft.length) (h2 : tl = 0 → pos = 0) (h3 : 0 < tl → pos < tl)
    (h4 : hist.length ≤ maxHistory) (h5 : hist.Pairwise (· < ·))
    (h6 : ∀ x ∈ hist.getLast?, x ≤ pos) :
    Inv ⟨ft, tl, pos, hist, lw⟩ :=
  ⟨h1, h2, h3, h4, h5, h6⟩

lemma inv_initEngine : Inv initEngine :=
  inv_mk rfl (fun _ => rfl) (fun h => h) (by simp [maxHistory])
    List.Pairwise.nil (by simp)

lemma inv_setText (raw : List Char) (e : Engine) : Inv (setText raw e).1 :=
  inv_mk rfl (fun _ => rfl) (fun h => h) (by simp [maxHistory])
    List.Pairwise.nil (by simp)

lemma inv_resizeEvent (e : Engine) (h : Inv e) : Inv (resizeEvent e).1 := by
  obtain ⟨h1, h2, h3, _, _, _⟩ := h
  exact inv_mk h1 h2 h3 (by simp [maxHistory]) List.Pairwise.nil (by simp)

lemma inv_firstLine (e : Engine) (h : Inv e) : Inv (firstLine e).1 := by
  obtain ⟨h1, h2, h3, h4, h5, h6⟩ := h
  unfold firstLine
  split
  case isTrue =>
    exact inv_mk h1 (fun _ => rfl) (fun h => h) (by simp [maxHistory])
      List.Pairwise.nil (by simp)
  case isFalse => exact ⟨h1, h2, h3, h4, h5, h6⟩

lemma inv_setPosition (i : Int) (e : Engine) (h : Inv e) : Inv (setPosition i e).1 := by
  obtain ⟨h1, h2, h3, h4, h5, h6⟩ := h
  unfold setPosition
  split
  case isTrue hft =>
    have hlen0 : e.text_length = 0 := by
      rw [h1, hft]
      rfl
    exact inv_mk h1 (fun _ => rfl) (fun hpos => hpos) h4 h5
      (fun x hx => by
        have := h6 x hx
        have := h2 hlen0
        omega)
  case isFalse hft =>
    have hlen0 : 0 < e.text_length := by
      rw [h1]
      exact List.length_pos.mpr hft
    rw [if_pos hlen0]
    exact inv_mk h1 (fun h0 => absurd h0 (by omega)) (fun _ => by omega)
      (by simp [maxHistory]) List.Pairwise.nil (by simp)

lemma inv_setProgress (p : ℚ) (e : Engine) (h : Inv e) : Inv (setProgress p e).1 := by
  unfold setProgress
  split
  case isTrue hft =>
    obtain ⟨h1, h2, h3, h4, h5, h6⟩ := h
    have hlen0 : e.text_length = 0 := by
      rw [h1, hft]
      rfl
    exact inv_mk h1 (fun _ => rfl) (fun hpos => hpos) h4 h5
      (fun x hx => by
        have := h6 x hx
        have := h2 hlen0
        omega)
  case isFalse hft =>
    exact inv_setPosition _ e h

lemma inv_nextLine (m : Measure) (w : Nat) (e : Engine) (h : Inv e) :
    Inv (nextLine m w e).1 := by
  obtain ⟨h1, h2, h3, h4, h5, h6⟩ := h
  by_cases hft : e.full_text = []
  · unfold nextLine
    rw [if_pos hft]
    exact ⟨h1, h2, h3, h4, h5, h6⟩
  · have hlen0 : 0 < e.text_length := by
      rw [h1]
      exact List.length_pos.mpr hft
    have hpos := h3 hlen0
    obtain ⟨hend, hgo⟩ := nextLine_spec m w e hft h1 hpos
    by_cases hw : w ≠ e.last_width
    · obtain ⟨ha4, ha5, ha6⟩ :=
        addToHistory_inv e.current_pos ([] : List Nat)
          (by simp [maxHistory]) List.Pairwise.nil (by simp)
      rcases le_or_lt e.text_length (e.current_pos + effectiveBreakLength m w e)
        with hE | hE
      · rw [hend hE]
        simp only [if_pos hw]
        exact inv_mk h1 (fun h0 => absurd h0 (by omega)) (fun _ => hpos) ha4 ha5
          (fun x hx => by
            rw [ha6, Option.mem_def, Option.some.injEq] at hx
            omega)
      · rw [hgo hE]
        simp only [if_pos hw]
        exact inv_mk h1 (fun h0 => absurd h0 (by omega)) (fun _ => hE) ha4 ha5
          (fun x hx => by
            rw [ha6, Option.mem_def, Option.some.injEq] at hx
            omega)
    · obtain ⟨ha4, ha5, ha6⟩ := addToHistory_inv e.current_pos e.position_history h4 h5 h6
      rcases le_or_lt e.text_length (e.current_pos + effectiveBreakLength m w e)
        with hE | hE
      · rw [hend hE]
        simp only [if_neg hw]
        exact inv_mk h1 (fun h0 => absurd h0 (by omega)) (fun _ => hpos) ha4 ha5
          (fun x hx => by
            rw [ha6, Option.mem_def, Option.some.injEq] at hx
            omega)
      · rw [hgo hE]
        simp only [if_neg hw]
        exact inv_mk h1 (fun h0 => absurd h0 (by omega)) (fun _ => hE) ha4 ha5
          (fun x hx => by
            rw [ha6, Option.mem_def, Option.some.injEq] at hx
            omega)

lemma inv_prevLine (m : Measure) (w : Nat) (e : Engine) (h : Inv e) :
    Inv (prevLine m w e).1 := by
  obtain ⟨h1, h2, h3, h4, h5, h6⟩ := h
  unfold prevLine
  by_cases hft : e.full_text = []
  · rw [if_pos hft]
    exact ⟨h1, h2, h3, h4, h5, h6⟩
  rw [if_neg hft]
  have hlen0 : 0 < e.text_length := by
    rw [h1]
    exact List.length_pos.mpr hft
  have hpos := h3 hlen0
  by_cases hp0 : e.current_pos = 0
  · rw [if_pos hp0]
    exact ⟨h1, h2, h3, h4, h5, h6⟩
  rw [if_neg hp0]
  by_cases hh : 2 ≤ e.position_history.length
  · rw [if_pos hh]
    have hne' : e.position_history.dropLast ≠ [] := by
      intro hcon
      have := List.length_dropLast e.position_history
      rw [hcon] at this
      simp at this
      omega
    have hlast' := List.getLast?_eq_getLast_of_ne_nil hne'
    have hmem : e.position_history.dropLast.getLast hne' ∈ e.position_history.dropLast :=
      List.getLast_mem hne'
    have hmem2 : e.position_history.dropLast.getLast hne' ∈ e.position_history :=
      (List.dropLast_sublist _).subset hmem
    have hle : e.position_history.dropLast.getLast hne' ≤ e.current_pos := by
      cases hl? : e.position_history.getLast? with
      | none =>
        rw [List.getLast?_eq_none_iff] at hl?
        have hlen' : e.position_history.length = 0 := by rw [hl?]; rfl
        omega
      | some y =>
        have := mem_le_getLast? h5 hmem2 y hl?
        have := h6 y hl?
        omega
    have hgd : e.position_history.dropLast.getLastD 0 =
        e.position_history.dropLast.getLast hne' := by
      rw [List.getLastD_eq_getLast?, hlast']
      rfl
    refine inv_mk h1 (fun h0 => absurd h0 (by omega))
      (fun _ => by rw [hgd]; omega) ?_
      (h5.sublist (List.dropLast_sublist _)) ?_
    · rw [List.length_dropLast]
      omega
    · intro x hx
      rw [hlast', Option.mem_def, Option.some.injEq] at hx
      rw [hgd]
      omega
  · rw [if_neg hh]
    have hest := prevEstimate_pos m (max 10 (w - 20)) e
    have hstart : e.current_pos - 3 * prevEstimate m (max 10 (w - 20)) e <
        e.current_pos := by omega
    have hloop := prevLoop_lt m (max 10 (w - 20)) e.full_text e.current_pos
      (e.current_pos + 1)
      (e.current_pos - 3 * prevEstimate m (max 10 (w - 20)) e)
      (e.current_pos - 3 * prevEstimate m (max 10 (w - 20)) e) hstart
    exact inv_mk h1 (fun h0 => absurd h0 (by omega)) (fun _ => by omega)
      (by simp [maxHistory]) List.Pairwise.nil (by simp)

lemma inv_lastLine (m : Measure) (w : Nat) (e : Engine) (h : Inv e) :
    Inv (lastLine m w e).1 := by
  obtain ⟨h1, h2, h3, h4, h5, h6⟩ := h
  unfold lastLine
  by_cases hft : e.full_text = []
  · rw [if_pos hft]
    exact ⟨h1, h2, h3, h4, h5, h6⟩
  rw [if_neg hft]
  have hlen0 : 0 < e.text_length := by
    rw [h1]
    exact List.length_pos.mpr hft
  have hest := lastEstimate_pos m (max 10 (w - 20)) e
  have hstart : e.text_length - 2 * lastEstimate m (max 10 (w - 20)) e <
      e.text_length := by omega
  have hloop := lastLoop_lt m (max 10 (w - 20)) e.full_text e.text_length
    (e.text_length + 1)
    (e.text_length - 2 * lastEstimate m (max 10 (w - 20)) e)
    (e.text_length - 2 * lastEstimate m (max 10 (w - 20)) e) hstart
  exact inv_mk h1 (fun h0 => absurd h0 (by omega)) (fun _ => by omega)
    (by simp [maxHistory]) List.Pairwise.nil (by simp)

/-- Every operation preserves the invariant. -/
lemma inv_step (m : Measure) (e e' : Engine) (hs : Step m e e') (h : Inv e) :
    Inv e' := by
  cases hs with
  | load raw e => exact inv_setText raw e
  | advance w e => exact inv_nextLine m w e h
  | retreat w e => exact inv_prevLine m w e h
  | seekFirst e => exact inv_firstLine e h
  | seekLast w e => exact inv_lastLine m w e h
  | seekOffset i e => exact inv_setPosition i e h
  | seekProgress p e => exact inv_setProgress p e h
  | resize e => exact inv_resizeEvent e h

/-- The invariant holds in every reachable state. -/
lemma inv_reachable (m : Measure) (e : Engine) (h : Reachable m e) : Inv e := by
  induction h with
  | refl => exact inv_initEngine
  | tail _ hstep ih => exact inv_step m _ _ hstep ih

/-! ### Claims C6 and C9: reachable-state invariants -/

/-- Claim C6: in every reachable state, `getProgress` returns
`position / length` (`0` on an empty buffer), always lies in `[0, 1]`,
and equals `0` exactly when `position = 0`. -/
theorem progress_bounds (m : Measure) (e : Engine) (hr : Reachable m e) :
    getProgress e =
      (if e.text_length = 0 then 0 else (e.current_pos : ℚ) / (e.text_length : ℚ)) ∧
    0 ≤ getProgress e ∧ getProgress e ≤ 1 ∧
    (getProgress e = 0 ↔ e.current_pos = 0) := by
  obtain ⟨h1, h2, h3, _, _, _⟩ := inv_reachable m e hr
  refine ⟨rfl, ?_, ?_, ?_⟩ <;> unfold getProgress
  · split
    · exact le_refl 0
    · positivity
  · split
    · exact zero_le_one
    · rename_i h0
      have hlen0 : 0 < e.text_length := Nat.pos_of_ne_zero h0
      have hpos := h3 hlen0
      rw [div_le_one (by exact_mod_cast hlen0)]
      exact_mod_cast le_of_lt hpos
  · split
    · rename_i h0
      simp [h2 h0]
    · rename_i h0
      rw [div_eq_zero_iff]
      simp [h0]

/-- Witness for C6 at the freshly constructed (reachable) engine. -/
theorem progress_bounds_witness :
    0 ≤ getProgress initEngine ∧ getProgress initEngine ≤ 1 := by
  have h := progress_bounds (fun l : List Char => l.length) initEngine
    Relation.ReflTransGen.refl
  exact ⟨h.2.1, h.2.2.1⟩

/-- Claim C9: in every reachable state the Position History has at most
100 entries, is strictly increasing, every entry is at most the current
position, and every entry except the most recent is strictly below it.
Every operation (load, advance, retreat, the seeks, resize) preserves
this. -/
theorem history_invariant (m : Measure) (e : Engine) (hr : Reachable m e) :
    e.position_history.length ≤ 100 ∧
    e.position_history.Pairwise (· < ·) ∧
    (∀ x ∈ e.position_history, x ≤ e.current_pos) ∧
    (∀ x ∈ e.position_history.dropLast, x < e.current_pos) := by
  obtain ⟨h1, h2, h3, h4, h5, h6⟩ := inv_reachable m e hr
  refine ⟨h4, h5, ?_, ?_⟩
  · intro x hx
    cases hl? : e.position_history.getLast? with
    | none =>
      rw [List.getLast?_eq_none_iff] at hl?
      rw [hl?] at hx
      cases hx
    | some y =>
      have := mem_le_getLast? h5 hx y hl?
      have := h6 y hl?
      omega
  · intro x hx
    cases hl? : e.position_history.getLast? with
    | none =>
      rw [List.getLast?_eq_none_iff] at hl?
      rw [hl?] at hx
      cases hx
    | some y =>
      have := mem_dropLast_lt_getLast? h5 hx y hl?
      have := h6 y hl?
      omega

/-- Witness for C9 at the reachable state obtained by loading `"hi"` and
advancing once (its history is `[0]`). -/
theorem history_invariant_witness :
    (nextLine (fun l : List Char => l.length) 1000
        (setText ('h' :: 'i' :: []) initEngine).1).1.position_history.length ≤ 100 ∧
    (nextLine (fun l : List Char => l.length) 1000
        (setText ('h' :: 'i' :: []) initEngine).1).1.position_history.Pairwise
      (· < ·) := by
  have hreach : Reachable (fun l : List Char => l.length)
      (nextLine (fun l : List Char => l.length) 1000
        (setText ('h' :: 'i' :: []) initEngine).1).1 :=
    Relation.ReflTransGen.tail
      (Relation.ReflTransGen.tail Relation.ReflTransGen.refl
        (Step.load ('h' :: 'i' :: []) initEngine))
      (Step.advance 1000 (setText ('h' :: 'i' :: []) initEngine).1)
  have h := history_invariant (fun l : List Char => l.length) _ hreach
  exact ⟨h.1, h.2.1⟩

/-! ### Claim C7: idempotence of the `setText` normalization -/

/-- No two adjacent whitespace characters (the shape left behind by
`re.sub(r'\s+', ' ', ·)`). -/
def noDoubleWs (a b : Char) : Prop :=
  ¬(pyIsSpace a = true ∧ pyIsSpace b = true)

/-- Every whitespace character surviving the collapse is a plain space. -/
lemma collapseWsAux_chars : ∀ (b : Bool) (l : List Char) (c : Char),
    c ∈ collapseWsAux b l → pyIsSpace c = true → c = ' ' := by
  intro b l
  induction l generalizing b with
  | nil =>
    intro c hc
    cases hc
  | cons a t ih =>
    intro c hc hws
    simp only [collapseWsAux] at hc
    split at hc
    · split at hc
      · exact ih _ c hc hws
      · rcases List.mem_cons.mp hc with rfl | h
        · rfl
        · exact ih _ c h hws
    · rename_i hna
      rcases List.mem_cons.mp hc with rfl | h
      · exact absurd hws hna
      · exact ih _ c h hws

/-- The collapse output never has two adjacent whitespace characters, and
in resume mode (`inRun = true`) it starts with a non-whitespace
character. -/
lemma collapseWsAux_chain : ∀ l : List Char,
    (collapseWsAux true l).Chain' noDoubleWs ∧
    (∀ d ∈ (collapseWsAux true l).head?, pyIsSpace d = false) ∧
    (collapseWsAux false l).Chain' noDoubleWs := by
  intro l
  induction l with
  | nil =>
    exact ⟨List.chain'_nil, by simp [collapseWsAux], List.chain'_nil⟩
  | cons a t ih =>
    obtain ⟨iht, ihh, ihf⟩ := ih
    by_cases hws : pyIsSpace a = true
    · have t1 : collapseWsAux true (a :: t) = collapseWsAux true t := by
        simp [collapseWsAux, hws]
      have f1 : collapseWsAux false (a :: t) = ' ' :: collapseWsAux true t := by
        simp [collapseWsAux, hws]
      refine ⟨by rw [t1]; exact iht, by rw [t1]; exact ihh, ?_⟩
      rw [f1, List.chain'_cons']
      refine ⟨fun y hy => ?_, iht⟩
      intro hcon
      rw [ihh y hy] at hcon
      cases hcon.2
    · have hfa : pyIsSpace a = false := by
        revert hws
        cases pyIsSpace a <;> simp
      have t1 : collapseWsAux true (a :: t) = a :: collapseWsAux false t := by
        simp [collapseWsAux, hfa]
      have f1 : collapseWsAux false (a :: t) = a :: collapseWsAux false t := by
        simp [collapseWsAux, hfa]
      have hchain : (a :: collapseWsAux false t).Chain' noDoubleWs := by
        rw [List.chain'_cons']
        refine ⟨fun y _ => ?_, ihf⟩
        intro hcon
        rw [hfa] at hcon
        cases hcon.1
      refine ⟨by rw [t1]; exact hchain, ?_, by rw [f1]; exact hchain⟩
      intro d hd
      rw [t1] at hd
      rw [Option.mem_def, List.head?_cons, Option.some.injEq] at hd
      rw [← hd]
      exact hfa

/-- On input that is already collapsed (all whitespace is a single plain
space, never doubled), the collapse is the identity. -/
lemma collapseWsAux_id : ∀ l : List Char,
    (∀ c ∈ l, pyIsSpace c = true → c = ' ') →
    l.Chain' noDoubleWs →
    collapseWsAux false l = l ∧
    ((∀ d ∈ l.head?, pyIsSpace d = false) → collapseWsAux true l = l) := by
  intro l
  induction l with
  | nil => exact fun _ _ => ⟨rfl, fun _ => rfl⟩
  | cons a t ih =>
    intro hchars hchain
    have hchars' : ∀ c ∈ t, pyIsSpace c = true → c = ' ' :=
      fun c hc => hchars c (List.mem_cons_of_mem _ hc)
    have hchain' : t.Chain' noDoubleWs := (List.chain'_cons'.mp hchain).2
    obtain ⟨ihf, iht⟩ := ih hchars' hchain'
    by_cases hws : pyIsSpace a = true
    · have ha : a = ' ' := hchars a (List.mem_cons_self a t) hws
      have hhead : ∀ d ∈ t.head?, pyIsSpace d = false := by
        intro d hd
        have hnod := (List.chain'_cons'.mp hchain).1 d hd
        revert hnod
        unfold noDoubleWs
        rw [hws]
        cases pyIsSpace d <;> simp
      have haux : collapseWsAux false (a :: t) = ' ' :: collapseWsAux true t := by
        simp [collapseWsAux, hws]
      refine ⟨by rw [haux, iht hhead, ha], ?_⟩
      intro hd
      have := hd a rfl
      rw [hws] at this
      cases this
    · have hfa : pyIsSpace a = false := by
        revert hws
        cases pyIsSpace a <;> simp
      constructor
      · simp [collapseWsAux, hfa, ihf]
      · intro _
        simp [collapseWsAux, hfa, ihf]

/-- The head of a `dropWhile pyIsSpace` result is never whitespace. -/
lemma head?_dropWhile_ws : ∀ l : List Char,
    ∀ d ∈ (l.dropWhile pyIsSpace).head?, pyIsSpace d = false := by
  intro l
  induction l with
  | nil =>
    intro d hd
    cases hd
  | cons a t ih =>
    intro d hd
    rw [List.dropWhile_cons] at hd
    split at hd
    · exact ih d hd
    · rename_i hna
      rw [Option.mem_def, List.head?_cons, Option.some.injEq] at hd
      rw [← hd]
      revert hna
      cases pyIsSpace a <;> simp

/-- Stripping only removes characters. -/
lemma mem_pyStrip (l : List Char) (c : Char) (hc : c ∈ pyStrip l) : c ∈ l := by
  unfold pyStrip at hc
  rw [List.mem_reverse] at hc
  have h₁ := (List.dropWhile_sublist _).subset hc
  rw [List.mem_reverse] at h₁
  exact (List.dropWhile_sublist _).subset h₁

/-- Stripping preserves the no-double-whitespace shape. -/
lemma chain'_pyStrip (l : List Char) (h : l.Chain' noDoubleWs) :
    (pyStrip l).Chain' noDoubleWs := by
  have hsym : ∀ a b : Char, noDoubleWs a b → noDoubleWs b a :=
    fun a b hn hab => hn ⟨hab.2, hab.1⟩
  unfold pyStrip
  have c1 := h.suffix (List.dropWhile_suffix pyIsSpace)
  have c2 : (l.dropWhile pyIsSpace).reverse.Chain' noDoubleWs :=
    List.chain'_reverse.mpr (c1.imp hsym)
  have c3 := c2.suffix (List.dropWhile_suffix pyIsSpace)
  exact List.chain'_reverse.mpr (c3.imp hsym)

/-- A non-empty `dropWhile` keeps the original last element. -/
lemma getLast?_dropWhile_ws (l : List Char)
    (h : l.dropWhile pyIsSpace ≠ []) :
    (l.dropWhile pyIsSpace).getLast? = l.getLast? := by
  obtain ⟨t, ht⟩ := List.dropWhile_suffix (l := l) pyIsSpace
  conv_rhs => rw [← ht]
  rw [List.getLast?_append]
  cases hgl : (l.dropWhile pyIsSpace).getLast? with
  | none => exact absurd (List.getLast?_eq_none_iff.mp hgl) h
  | some y => rfl

/-- The stripped string never starts with whitespace. -/
lemma pyStrip_head (l : List Char) :
    ∀ d ∈ (pyStrip l).head?, pyIsSpace d = false := by
  intro d hd
  unfold pyStrip at hd
  rw [List.head?_reverse] at hd
  by_cases hnil : (l.dropWhile pyIsSpace).reverse.dropWhile pyIsSpace = []
  · rw [hnil] at hd
    cases hd
  · rw [getLast?_dropWhile_ws _ hnil, List.getLast?_reverse] at hd
    exact head?_dropWhile_ws l d hd

/-- The stripped string never ends with whitespace. -/
lemma pyStrip_last (l : List Char) :
    ∀ d ∈ (pyStrip l).getLast?, pyIsSpace d = false := by
  intro d hd
  unfold pyStrip at hd
  rw [List.getLast?_reverse] at hd
  exact head?_dropWhile_ws _ d hd

/-- `dropWhile` is the identity when the head is not whitespace. -/
lemma dropWhile_ws_id (l : List Char)
    (hd : ∀ d ∈ l.head?, pyIsSpace d = false) :
    l.dropWhile pyIsSpace = l := by
  cases l with
  | nil => rfl
  | cons a t =>
    rw [List.dropWhile_cons, if_neg]
    rw [hd a rfl]
    simp

/-- `strip` is the identity on a string with no leading or trailing
whitespace. -/
lemma pyStrip_id (l : List Char)
    (hd : ∀ d ∈ l.head?, pyIsSpace d = false)
    (hl : ∀ d ∈ l.getLast?, pyIsSpace d = false) :
    pyStrip l = l := by
  unfold pyStrip
  rw [dropWhile_ws_id l hd]
  rw [dropWhile_ws_id l.reverse (by rw [List.head?_reverse]; exact hl)]
  exact List.reverse_reverse l

/-- Replacing newlines is the identity when every whitespace character is
already a plain space. -/
lemma replaceNewlines_id (l : List Char)
    (hchars : ∀ c ∈ l, pyIsSpace c = true → c = ' ') :
    replaceNewlines l = l := by
  unfold replaceNewlines
  have hpt : ∀ c ∈ l, (if c = '\n' ∨ c = '\r' then ' ' else c) = id c := by
    intro c hc
    by_cases h : c = '\n' ∨ c = '\r'
    · exfalso
      rcases h with rfl | rfl
      · exact absurd (hchars _ hc (by decide)) (by decide)
      · exact absurd (hchars _ hc (by decide)) (by decide)
    · rw [if_neg h]
      rfl
  rw [List.map_congr_left hpt, List.map_id]

/-- Normalized text contains only plain spaces as whitespace. -/
lemma normalizeText_chars (l : List Char) :
    ∀ c ∈ normalizeText l, pyIsSpace c = true → c = ' ' := by
  intro c hc
  exact collapseWsAux_chars false _ c (mem_pyStrip _ c hc)

/-- Normalized text has no two adjacent whitespace characters. -/
lemma normalizeText_chain (l : List Char) :
    (normalizeText l).Chain' noDoubleWs :=
  chain'_pyStrip _ (collapseWsAux_chain (replaceNewlines l)).2.2

/-- Claim C7: `setText`'s normalization is idempotent — normalizing a
normalized buffer leaves it unchanged, so loading raw text (with mixed
CR/CRLF/LF and whitespace runs) and loading its normalized equivalent
produce equal Document Buffers. -/
theorem load_normalization_idempotent (raw : List Char) (e₁ e₂ : Engine) :
    normalizeText (normalizeText raw) = normalizeText raw ∧
    (setText (normalizeText raw) e₁).1.full_text = (setText raw e₂).1.full_text := by
  have hid : ∀ l : List Char, normalizeText (normalizeText l) = normalizeText l := by
    intro l
    show pyStrip (collapseWs (replaceNewlines (normalizeText l))) = normalizeText l
    rw [replaceNewlines_id _ (normalizeText_chars l)]
    have hcoll : collapseWs (normalizeText l) = normalizeText l :=
      (collapseWsAux_id (normalizeText l) (normalizeText_chars l)
        (normalizeText_chain l)).1
    rw [hcoll]
    exact pyStrip_id _ (pyStrip_head _) (pyStrip_last _)
  refine ⟨hid raw, ?_⟩
  unfold setText
  by_cases hraw : raw = []
  · subst hraw
    simp [show normalizeText [] = [] from rfl]
  · by_cases hnl : normalizeText raw = []
    · simp [hraw, hnl]
    · simp [hraw, hnl, hid raw]

end MiniRead
